import Mathlib

/-!
Verification of the Threes puzzle engine (`threes/threes_util.py`,
`threes/threes_env.py`, `common/network_common.py`).

Modelling conventions:
* a board cell is an `Int` (Python ints; the preview sentinel is negative);
* a line is a `List Int`, a board a `List (List Int)`;
* in-place mutation is modelled by explicit state passing: a function that
  mutates its argument returns the new value;
* Python `IndexError` on list indexing is modelled by `Option` /
  `Except`: `SCORES[i]` becomes `scoresAt i`, which is `none` outside
  the table bounds (the embedded code never indexes `SCORES` with a
  negative value, so Python's negative-index wrap-around is unreachable);
* `np.random` calls are modelled by explicit oracle arguments (the drawn
  value or index is passed in).
-/

/-! ## Tile constants (`threes_util.py` lines 10-52) -/

def EMPTY_SPACE : Int := 0

def PIECE_1 : Int := 1

def PIECE_2 : Int := 2

def PIECE_3 : Int := 3

def PIECE_6 : Int := 4

def PIECE_12 : Int := 5

def PIECE_24 : Int := 6

def PIECE_48 : Int := 7

def PIECE_12288 : Int := 15

def MAX_PIECE : Int := PIECE_12288

/-- Sentinel marking cells where a new piece may appear in preview boards. -/
def POSSIBLE_FUTURE_PIECE : Int := -100

/-- Python: `SCORES = [0, 0, 0] + [3 ** i for i in range(1, 14)]`, a
16-entry table. -/
def SCORES : List Int := [0, 0, 0] ++ (List.range 13).map (fun i => (3 : Int) ^ (i + 1))

/-- Bounds-checked read of `SCORES[x]`; `none` models Python's `IndexError`
for `x ≥ len(SCORES)`.  (Negative indices would wrap in Python, but every
embedded call site indexes with a non-negative value.) -/
def scoresAt (x : Int) : Option Int :=
  if 0 ≤ x ∧ x < 16 then some (SCORES.getD x.toNat 0) else none

/-! ## Line collapse (`move_line_left`, `threes_util.py` lines 55-105)

The Python function scans indices `i = 0, 1, ...` and breaks at the first
adjacent pair where a rule applies.  We embed that scan as structural
recursion over the list: at `a :: b :: rest` the pair `(a, b)` is the pair
at the current index; if no rule applies the scan moves to `b :: rest`
(pairs at larger indices) and any transformation found there leaves the
prefix cell `a` in place, because the slice assignments
`line[i:-1] = line[i+1:]` / `line[i+1:-1] = line[i+2:]` only touch cells
from index `i` on.  Each firing rule deletes one cell and writes
`EMPTY_SPACE` into the last cell, i.e. appends `[EMPTY_SPACE]`. -/

/-- Condition of the first rule: `line[i] == EMPTY_SPACE and
line[i + 1] != EMPTY_SPACE`. -/
def rule1 (a b : Int) : Bool := a = EMPTY_SPACE ∧ b ≠ EMPTY_SPACE

/-- Condition of the second rule: `PIECE_1 <= line[i] <= PIECE_2 and
line[i] + line[i + 1] == 3`. -/
def rule2 (a b : Int) : Bool := (PIECE_1 ≤ a ∧ a ≤ PIECE_2) ∧ a + b = 3

/-- Condition of the third rule: `PIECE_3 <= line[i] == line[i + 1]`
(Python chained comparison: `PIECE_3 ≤ line[i]` and `line[i] = line[i+1]`). -/
def rule3 (a b : Int) : Bool := PIECE_3 ≤ a ∧ a = b

/-- Result `some none`: no rule applies anywhere (Python falls through to
the `else` of the `for`).  Result `some (some (l, d))`: the first applicable
rule transforms the tail into `l` with score delta `d`.  Result `none`:
the score lookup `SCORES[line[i] + 1]` raised `IndexError`. -/
def moveLineRec : List Int → Option (Option (List Int × Int))
  | a :: b :: rest =>
    if rule1 a b then
      -- move everything after the empty space to the left
      some (some (b :: (rest ++ [EMPTY_SPACE]), 0))
    else if rule2 a b then
      -- merge a 1 and a 2 into a 3
      (scoresAt PIECE_3).map (fun s => some (PIECE_3 :: (rest ++ [EMPTY_SPACE]), s))
    else if rule3 a b then
      -- merge two equal pieces of rank ≥ 3
      match scoresAt (a + 1), scoresAt a with
      | some s1, some s0 => some (some ((a + 1) :: (rest ++ [EMPTY_SPACE]), s1 - 2 * s0))
      | _, _ => none
    else
      (moveLineRec (b :: rest)).map (fun r => r.map (fun p => (a :: p.1, p.2)))
  | _ => some none

/-- Embedding of `move_line_left(line, do_move)`.  Returns
`(line after the call, moved, score_delta)`; when `do_move` is false the
line is returned unchanged (the Python mutations are guarded by
`if do_move:`), but the scan — including the score lookups — still runs. -/
def move_line_left (line : List Int) (do_move : Bool) : Option (List Int × Bool × Int) :=
  match moveLineRec line with
  | none => none
  | some none => some (line, false, 0)
  | some (some (l, d)) => some ((if do_move then l else line), true, d)

/-- Embedding of `is_line_movable_left(line)`. -/
def is_line_movable_left (line : List Int) : Option Bool :=
  (move_line_left line false).map (fun r => r.2.1)

/-! ## Scoring (`total_score`, `threes_util.py` lines 231-234) -/

/-- Embedding of `total_score`: sum of `SCORES[x]` over all non-negative
cells (negative sentinel cells are skipped). -/
def total_score : List Int → Option Int
  | [] => some 0
  | x :: xs => do
    let rest ← total_score xs
    if 0 ≤ x then
      let s ← scoresAt x
      pure (s + rest)
    else
      pure rest

/-! ## Future piece possibilities (`threes_util.py` lines 223-228) -/

/-- Integer range `[lo, hi)` as a list, modelling Python `range(lo, hi)`. -/
def intRange (lo hi : Int) : List Int :=
  (List.range (hi - lo).toNat).map (fun i : Nat => lo + (i : Int))

/-- Embedding of `future_piece_possibilities(piece_code)`. -/
def future_piece_possibilities (piece_code : Int) : List Int :=
  if piece_code ≤ PIECE_6 then [piece_code]
  else intRange (max PIECE_6 (piece_code - 2)) (piece_code + 1)

/-! ## Claim-side description of the line collapse

The specification describes `move_line_left` as: find the FIRST index `i`
(scanning left to right over adjacent pairs) where a rule applies, apply
that rule's transformation there, and stop.  The following definitions
state that description directly in terms of indices and are compared with
the recursive embedding above. -/

/-- Adjacent pairs `(line[i], line[i+1])` for `i = 0 .. len-2`. -/
def adjacentPairs (line : List Int) : List (Int × Int) :=
  line.zip line.tail

/-- Whether some rule (shift into a gap, 1+2 merge, or equal-pieces merge)
applies to the adjacent pair `(a, b)`. -/
def ruleApplies (a b : Int) : Bool :=
  rule1 a b || rule2 a b || rule3 a b

/-- Index of the leftmost adjacent pair where a rule applies. -/
def firstEventIdx (line : List Int) : Option Nat :=
  (adjacentPairs line).findIdx? (fun p => ruleApplies p.1 p.2)

/-- Delete the cell at index `j`, shifting everything after it one step
left, and vacate the last cell (the net effect of the Python slice
assignment pair `line[j:-1] = line[j+1:]; line[-1] = EMPTY_SPACE`). -/
def eraseShift (line : List Int) (j : Nat) : List Int :=
  line.take j ++ line.drop (j + 1) ++ [EMPTY_SPACE]

/-- Transformation and score delta of the first applicable rule at index
`i`, as the specification words it; `none` when the rule's score lookup is
out of bounds. -/
def applyRuleAt (line : List Int) (i : Nat) : Option (List Int × Int) :=
  let a := line.getD i 0
  let b := line.getD (i + 1) 0
  if rule1 a b then
    some (eraseShift line i, 0)
  else if rule2 a b then
    (scoresAt PIECE_3).map (fun s => (eraseShift (line.set i PIECE_3) (i + 1), s))
  else if rule3 a b then
    match scoresAt (a + 1), scoresAt a with
    | some s1, some s0 => some (eraseShift (line.set i (a + 1)) (i + 1), s1 - 2 * s0)
    | _, _ => none
  else none

/-- Decidable movability: some adjacent pair admits a rule. -/
def hasEvent (line : List Int) : Bool :=
  (adjacentPairs line).any (fun p => ruleApplies p.1 p.2)

/-! ## Validity predicates -/

/-- Every cell is a tile code in `[0, MAX_PIECE]`. -/
def ValidLine (line : List Int) : Prop :=
  ∀ x ∈ line, 0 ≤ x ∧ x ≤ MAX_PIECE

/-- No two adjacent cells both hold the terminal code `MAX_PIECE`. -/
def NoAdjMax (line : List Int) : Prop :=
  ∀ p ∈ adjacentPairs line, ¬(p.1 = MAX_PIECE ∧ p.2 = MAX_PIECE)

instance : DecidablePred ValidLine := fun l =>
  inferInstanceAs (Decidable (∀ x ∈ l, 0 ≤ x ∧ x ≤ MAX_PIECE))

instance : DecidablePred NoAdjMax := fun l =>
  inferInstanceAs (Decidable (∀ p ∈ adjacentPairs l, ¬(p.1 = MAX_PIECE ∧ p.2 = MAX_PIECE)))

/-! ## Claim-side helpers for board moves

Total (default-valued) views of the per-line move results, used to state
the board-level claims: under the validity preconditions `move_line_left`
never fails, and these helpers agree with it. -/

/-- Line after the mutating collapse (the line itself when nothing fires). -/
def collapse1 (l : List Int) : List Int :=
  match move_line_left l true with
  | some r => r.1
  | none => l

/-- Moved flag of the collapse. -/
def moveFlag (l : List Int) : Bool :=
  match move_line_left l true with
  | some r => r.2.1
  | none => false

/-- Score delta of the collapse. -/
def lineDelta (l : List Int) : Int :=
  match move_line_left l true with
  | some r => r.2.2
  | none => 0

/-- Sum of the per-line score deltas of a list of lines. -/
def sumDeltas (L : List (List Int)) : Int :=
  (L.map lineDelta).sum

/-- Indices (counting from `k`) of the `true` entries of a flag list, in
increasing order. -/
def movedIndicesFrom (k : Nat) : List Bool → List Nat
  | [] => []
  | f :: fs => if f then k :: movedIndicesFrom (k + 1) fs else movedIndicesFrom (k + 1) fs

/-- Indices of the movable (equivalently, moving) lines. -/
def movableIdxs (L : List (List Int)) : List Nat :=
  movedIndicesFrom 0 (L.map moveFlag)

/-- Every line has valid tile codes and no adjacent pair of terminal
pieces (the precondition under which no `SCORES` lookup can fail). -/
def GoodLines (L : List (List Int)) : Prop :=
  ∀ l ∈ L, ValidLine l ∧ NoAdjMax l

instance : DecidablePred GoodLines := fun L =>
  inferInstanceAs (Decidable (∀ l ∈ L, ValidLine l ∧ NoAdjMax l))

/-! ## Boards and rotation views (`threes_util.py` lines 135-154)

A board is a list of rows.  `np.rot90(board, k, axes=(-2, -1))` rotates a
square `n × n` board counterclockwise `k` times; in index form one
counterclockwise rotation sends cell `(i, j)` of the output to cell
`(j, n-1-i)` of the input, so `k` rotations give the index maps used
below.  The Python function returns a mutable VIEW; we model the view by
computing the rotated board explicitly and rotating the result of a
mutation back with the inverse rotation (`4 - k` further quarter turns). -/

/-- Cell read `board[i][j]` (out-of-range reads return 0; all uses are
in range). -/
def cell (b : List (List Int)) (i j : Nat) : Int :=
  (b.getD i []).getD j 0

/-- Board with side `n` whose cell `(i, j)` is `f i j`. -/
def mkBoard (n : Nat) (f : Nat → Nat → Int) : List (List Int) :=
  (List.range n).map (fun i => (List.range n).map (fun j => f i j))

/-- The board is a square matrix of side `n` (the `assert` in
`rotated_boards_view`). -/
def SquareBoard (n : Nat) (b : List (List Int)) : Prop :=
  b.length = n ∧ ∀ row ∈ b, row.length = n

instance (n : Nat) (b : List (List Int)) : Decidable (SquareBoard n b) :=
  inferInstanceAs (Decidable (b.length = n ∧ ∀ row ∈ b, row.length = n))

/-- Embedding of `rotated_boards_view(board, direction)`: `direction`
quarter turns counterclockwise; direction 0 returns the board itself. -/
def rotated_boards_view (n : Nat) (b : List (List Int)) (direction : Nat) : List (List Int) :=
  match direction % 4 with
  | 0 => b
  | 1 => mkBoard n (fun i j => cell b j (n - 1 - i))
  | 2 => mkBoard n (fun i j => cell b (n - 1 - i) (n - 1 - j))
  | _ => mkBoard n (fun i j => cell b (n - 1 - j) i)

/-- Inverse view: rotating `4 - k` further quarter turns undoes `k`
quarter turns on a square board.  Mutations performed on the rotated view
are carried back to the original orientation with this map. -/
def unrotate_view (n : Nat) (b : List (List Int)) (direction : Nat) : List (List Int) :=
  rotated_boards_view n b ((4 - direction % 4) % 4)

/-- Result of running `move_line_left(line)` on every line of the rotated
view in order, as the `for line in rotated:` loop does.  Returns the lines
after the loop, and on success the accumulated score delta plus the
per-line moved flags; `none` models an `IndexError` escaping the loop (the
lines at and after the failing one are unchanged, since the score lookup
precedes every mutation). -/
def moveBoardLines : List (List Int) → List (List Int) × Option (Int × List Bool)
  | [] => ([], some (0, []))
  | l :: ls =>
    match move_line_left l true with
    | none => (l :: ls, none)
    | some (l2, m, d) =>
      let r := moveBoardLines ls
      (l2 :: r.1, r.2.map (fun p => (d + p.1, m :: p.2)))

/-- Indices of the lines that moved (Python keeps the moved line objects
in `nextpiece_possible_rows`; identifying a line by its index in the
rotated view is equivalent). -/
def movedIndices (flags : List Bool) : List Nat :=
  movedIndicesFrom 0 flags

/-- Write `piece` into the last cell of row `row` (Python
`nextpiece_possible_rows[row_to_add][-1] = piece_to_add`). -/
def setLastCell (b : List (List Int)) (row : Nat) (piece : Int) : List (List Int) :=
  b.set row ((b.getD row []).dropLast ++ [piece])

/-- Error kinds of the board move: `illegalMove` models
`IllegalMoveError`, `indexError` a `SCORES` lookup failure. -/
inductive MoveError where
  | illegalMove : MoveError
  | indexError : MoveError
deriving DecidableEq

/-- Embedding of `move_board(board, direction, piece_to_add, np_rand)`.
The random call `np_rand.choice(len(nextpiece_possible_rows))` is modelled
by the oracle argument `choice` (callers consider every `choice` below the
number of moved rows).  Returns the board after the call together with the
score delta or the raised error. -/
def move_board (n : Nat) (b : List (List Int)) (direction : Nat) (piece_to_add : Int)
    (choice : Nat) : List (List Int) × Except MoveError Int :=
  let r := moveBoardLines (rotated_boards_view n b direction)
  match r.2 with
  | none => (unrotate_view n r.1 direction, .error .indexError)
  | some (total_delta, flags) =>
    match movedIndices flags with
    | [] => (unrotate_view n r.1 direction, .error .illegalMove)
    | idxs@(_ :: _) =>
      (unrotate_view n (setLastCell r.1 (idxs.getD choice 0) piece_to_add) direction,
        .ok total_delta)

/-! ## Legality and game over (`threes_util.py` lines 108-132) -/

/-- Short-circuiting `any(is_line_movable_left(line) for line in lines)`;
`none` when a movability check raises before a `True` is found. -/
def anyMovable : List (List Int) → Option Bool
  | [] => some false
  | l :: ls => do
    let m ← is_line_movable_left l
    if m then some true else anyMovable ls

/-- Embedding of `is_legal_action(board, direction)`. -/
def is_legal_action (n : Nat) (b : List (List Int)) (direction : Nat) : Option Bool :=
  anyMovable (rotated_boards_view n b direction)

/-- Transpose view `board.T`: cell `(i, j)` of the transpose is cell
`(j, i)` of the board. -/
def transposeView (n : Nat) (b : List (List Int)) : List (List Int) :=
  mkBoard n (fun i j => cell b j i)

/-- Short-circuiting
`any(is_line_movable_left(line) or is_line_movable_left(line[::-1]) for line in lines)`. -/
def anyMovableEitherEnd : List (List Int) → Option Bool
  | [] => some false
  | l :: ls => do
    let m1 ← is_line_movable_left l
    if m1 then some true
    else do
      let m2 ← is_line_movable_left l.reverse
      if m2 then some true else anyMovableEitherEnd ls

/-- Embedding of `is_game_over(board)`. -/
def is_game_over (n : Nat) (b : List (List Int)) : Option Bool :=
  if b.any (fun row => row.any (fun x => x = PIECE_12288)) then some true
  else do
    let r1 ← anyMovableEitherEnd b
    if r1 then some false
    else do
      let r2 ← anyMovableEitherEnd (transposeView n b)
      if r2 then some false else some true

/-! ## Future piece display (`threes_env.py` lines 192-205)

`ThreesGame.choose_future_piece_display` draws from two endless queues
(`next_piece_queue` and `special_queue`) and from
`np_random.randint(PIECE_24, max_special_piece + 1)`.  The queues are
modelled as streams with a cursor (`specialQ`, `baseQ` with positions
`sPos`, `bPos`); a draw reads the stream at its cursor and advances it.
`randint lo hi` is an oracle for a uniform draw from `[lo, hi)`.  Note the
short-circuit in `highest_piece >= PIECE_48 and next(self.special_queue)`:
the special queue is NOT advanced when the maximum is below `PIECE_48`. -/

/-- Maximum cell of a (nonempty, flattened) board, `np.max(self.board)`. -/
def boardMax (cells : List Int) : Int :=
  cells.foldl max (cells.headD 0)

/-- Embedding of `ThreesGame.choose_future_piece_display`.  Returns the
displayed future piece and the two queue cursors after the call. -/
def choose_future_piece_display (boardCells : List Int) (specialQ : Nat → Bool) (sPos : Nat)
    (baseQ : Nat → Int) (bPos : Nat) (randint : Int → Int → Int) : Int × Nat × Nat :=
  let highest_piece := boardMax boardCells
  if PIECE_48 ≤ highest_piece then
    if specialQ sPos then
      let max_special_piece := highest_piece - 3
      (if max_special_piece ≤ PIECE_24 then max_special_piece
       else randint PIECE_24 (max_special_piece + 1), sPos + 1, bPos)
    else
      (baseQ bPos, sPos + 1, bPos + 1)
  else
    (baseQ bPos, sPos, bPos + 1)

/-! ## One-hot encoding (`common/network_common.py`)

`onehot_encode` zeroes an output of shape `(*, num_values)`, then walks the
flattened input in chunks of `len(_ARANGE) = 4096` entries, setting
`output[k][input[k]] = 1` for each entry of the chunk.  The input's shape
only determines how the output is reshaped afterwards; we model the
flattened input (a `List Nat`) and the output as the list of its
`num_values`-wide one-hot rows, and we keep the chunked loop. -/

/-- Chunk size, `len(_ARANGE)`. -/
def ARANGE_LEN : Nat := 4096

/-- Write a 1 at column `v` of an output row
(`output_region[arange_i, value] = 1`). -/
def setOne (row : List Nat) (v : Nat) : List Nat :=
  row.set v 1

/-- The chunked assignment loop
`for start in range(0, len(flattened_data), len(_ARANGE)): ...`. -/
def applyChunks (rows : List (List Nat)) (data : List Nat) : List (List Nat) :=
  match data with
  | [] => rows
  | d :: ds =>
    (List.zipWith setOne (rows.take ARANGE_LEN) ((d :: ds).take ARANGE_LEN)) ++
      applyChunks (rows.drop ARANGE_LEN) ((d :: ds).drop ARANGE_LEN)
termination_by data.length
decreasing_by simp [ARANGE_LEN]; omega

/-- Embedding of `onehot_encode` on the flattened input: start from an
all-zero `(len(input), num_values)` output and run the chunked loop. -/
def onehot_encode (data : List Nat) (num_values : Nat) : List (List Nat) :=
  applyChunks (data.map (fun _ => List.replicate num_values 0)) data

/-- Index of the first maximal entry, `np.argmax` along the encoded axis. -/
def argmaxRow (row : List Nat) : Nat :=
  row.findIdx (fun x => x = row.foldr max 0)

/-! ## Sanity checks against the repository's own test data
(`test_threes_util.py`). -/

example : move_line_left [0, 0, 0, 0] true = some ([0, 0, 0, 0], false, 0) := by decide

example : move_line_left [2, 0, 1, 0] true = some ([2, 1, 0, 0], true, 0) := by decide

example : move_line_left [1, 2, 4, 3] true = some ([3, 4, 3, 0], true, 3) := by decide

example : move_line_left [1, 2, 1, 2] true = some ([3, 1, 2, 0], true, 3) := by decide

example : move_line_left [2, 2, 3, 3] true = some ([2, 2, 4, 0], true, 3) := by decide

example : move_line_left [2, 8, 8, 8] true = some ([2, 9, 8, 0], true, 729) := by decide

example : move_line_left [2, 2, 4, 3] true = some ([2, 2, 4, 3], false, 0) := by decide

example : move_line_left [2, 4, 2, 4] true = some ([2, 4, 2, 4], false, 0) := by decide

example : move_line_left [4, 4, 0, 1] false = some ([4, 4, 0, 1], true, 9) := by decide

example : total_score [1, 2, 4, 3] = some 12 := by decide

example : total_score [3, 4, 3, 0] = some 15 := by decide

example : total_score [-100, 5, 0, 1] = some 27 := by decide

example : future_piece_possibilities 3 = [3] := by decide

example : future_piece_possibilities 5 = [4, 5] := by decide

example : future_piece_possibilities 6 = [4, 5, 6] := by decide

example : future_piece_possibilities 9 = [7, 8, 9] := by decide

/-! ## Lemmas relating the recursive scan to the first-event description -/

theorem applyRuleAt_cons_succ (a : Int) (tail : List Int) (i : Nat) :
    applyRuleAt (a :: tail) (i + 1) = (applyRuleAt tail i).map (fun p => (a :: p.1, p.2)) := by
  unfold applyRuleAt eraseShift
  simp only [List.getD_cons_succ, List.set_cons_succ, List.take_succ_cons,
    List.drop_succ_cons]
  by_cases h1 : rule1 (tail.getD i 0) (tail.getD (i + 1) 0)
  · simp [List.getD] at h1
    simp [h1]
  · by_cases h2 : rule2 (tail.getD i 0) (tail.getD (i + 1) 0)
    · simp [List.getD] at h1 h2
      cases hs : scoresAt PIECE_3 <;> simp [h1, h2, hs]
    · by_cases h3 : rule3 (tail.getD i 0) (tail.getD (i + 1) 0)
      · simp [List.getD] at h1 h2 h3
        cases hs1 : scoresAt (tail[i]?.getD 0 + 1) <;>
          cases hs0 : scoresAt (tail[i]?.getD 0) <;>
            simp [h1, h2, h3, hs1, hs0]
      · simp [List.getD] at h1 h2 h3
        simp [h1, h2, h3]

theorem adjacentPairs_cons_cons (a b : Int) (rest : List Int) :
    adjacentPairs (a :: b :: rest) = (a, b) :: adjacentPairs (b :: rest) := by
  simp [adjacentPairs]

theorem moveLineRec_eq_firstEvent (line : List Int) :
    moveLineRec line =
      match firstEventIdx line with
      | none => some none
      | some i => (applyRuleAt line i).map some := by
  induction line with
  | nil => simp [moveLineRec, firstEventIdx, adjacentPairs]
  | cons a tail ih =>
    cases tail with
    | nil => simp [moveLineRec, firstEventIdx, adjacentPairs]
    | cons b rest =>
      by_cases h1 : rule1 a b
      · have hfe : firstEventIdx (a :: b :: rest) = some 0 := by
          simp [firstEventIdx, adjacentPairs_cons_cons, List.findIdx?_cons, ruleApplies, h1]
        rw [hfe]
        simp [moveLineRec, h1, applyRuleAt, eraseShift]
      · by_cases h2 : rule2 a b
        · have hfe : firstEventIdx (a :: b :: rest) = some 0 := by
            simp [firstEventIdx, adjacentPairs_cons_cons, List.findIdx?_cons, ruleApplies, h1, h2]
          rw [hfe]
          simp only [moveLineRec, h1, h2, if_true, if_false, Bool.false_eq_true,
            applyRuleAt, eraseShift, List.getD_cons_zero, List.getD_cons_succ]
          cases scoresAt PIECE_3 <;> simp
        · by_cases h3 : rule3 a b
          · have hfe : firstEventIdx (a :: b :: rest) = some 0 := by
              simp [firstEventIdx, adjacentPairs_cons_cons, List.findIdx?_cons, ruleApplies,
                h1, h2, h3]
            rw [hfe]
            simp only [moveLineRec, h1, h2, h3, if_true, if_false, Bool.false_eq_true,
              applyRuleAt, eraseShift, List.getD_cons_zero, List.getD_cons_succ]
            cases scoresAt (a + 1) <;> cases scoresAt a <;> simp
          · have hra : ruleApplies a b = false := by simp [ruleApplies, h1, h2, h3]
            have hfe : firstEventIdx (a :: b :: rest) =
                (firstEventIdx (b :: rest)).map (fun i => i + 1) := by
              simp [firstEventIdx, adjacentPairs_cons_cons, List.findIdx?_cons, hra,
                List.findIdx?_succ]
            rw [hfe]
            have hrec : moveLineRec (a :: b :: rest) =
                (moveLineRec (b :: rest)).map (fun r => r.map (fun p => (a :: p.1, p.2))) := by
              simp [moveLineRec, h1, h2, h3]
            rw [hrec, ih]
            cases hidx : firstEventIdx (b :: rest) with
            | none => simp
            | some i =>
              cases har : applyRuleAt (b :: rest) i <;>
                simp [applyRuleAt_cons_succ, har]

/-! ## C1: first-applicable-rule semantics of the line collapse -/

/-- C1: for every line, `move_line_left` with `do_move=True` applies
exactly the first applicable rule found scanning adjacent pairs left to
right — shift into a gap (delta 0), 1+2 merge into a 3 (delta = value of
the 3 tile), or equal-codes-≥3 merge (delta = value(code+1) − 2·value(code))
— each deleting one cell and vacating the last; if no rule applies
anywhere the call returns `(False, 0)` and the line is unchanged.  Two
adjacent cells with the same base-1 or base-2 code admit no rule, and only
a single (the leftmost) event fires per call. -/
theorem C1_first_applicable_rule (line : List Int) :
    (firstEventIdx line = none → move_line_left line true = some (line, false, 0)) ∧
    (∀ i, firstEventIdx line = some i →
      move_line_left line true = (applyRuleAt line i).map (fun p => (p.1, true, p.2))) ∧
    (∀ c : Int, PIECE_1 ≤ c → c ≤ PIECE_2 → ruleApplies c c = false) := by
  refine ⟨?_, ?_, ?_⟩
  · intro h
    unfold move_line_left
    rw [moveLineRec_eq_firstEvent, h]
  · intro i h
    unfold move_line_left
    rw [moveLineRec_eq_firstEvent, h]
    cases ha : applyRuleAt line i <;> simp [ha]
  · intro c hc1 hc2
    have hc : c = 1 ∨ c = 2 := by
      simp only [PIECE_1] at hc1
      simp only [PIECE_2] at hc2
      omega
    rcases hc with hc | hc <;> subst hc <;> decide

theorem C1_first_applicable_rule_witness :
    move_line_left [2, 4, 2, 4] true = some ([2, 4, 2, 4], false, 0) ∧
    move_line_left [1, 2, 4, 3] true = some ([3, 4, 3, 0], true, 3) := by
  constructor
  · exact (C1_first_applicable_rule [2, 4, 2, 4]).1 (by decide)
  · have h := (C1_first_applicable_rule [1, 2, 4, 3]).2.1 0 (by decide)
    rw [h]
    decide

/-! ## C5: the `do_move=False` mode is side-effect free -/

/-- C5: for every line, `move_line_left(line, do_move=False)` leaves the
line unchanged and returns the same `(moved, score_delta)` pair the
mutating call would return (and the two raise in exactly the same cases);
consequently `is_line_movable_left` never mutates its input and reports
exactly the `moved` flag of the mutating call. -/
theorem C5_do_move_false_side_effect_free (line : List Int) :
    (∀ l m d, move_line_left line false = some (l, m, d) →
      l = line ∧ ∃ l2, move_line_left line true = some (l2, m, d)) ∧
    (move_line_left line false = none ↔ move_line_left line true = none) ∧
    is_line_movable_left line = (move_line_left line true).map (fun r => r.2.1) := by
  unfold is_line_movable_left
  cases hr : moveLineRec line with
  | none => simp [move_line_left, hr]
  | some r =>
    cases r with
    | none => simp [move_line_left, hr]
    | some p =>
      refine ⟨?_, by simp [move_line_left, hr], by simp [move_line_left, hr]⟩
      intro l m d h
      simp only [move_line_left, hr, Bool.false_eq_true, if_false, Option.some.injEq,
        Prod.mk.injEq] at h
      obtain ⟨hl, hm, hd⟩ := h
      refine ⟨hl.symm, ⟨p.1, ?_⟩⟩
      simp [move_line_left, hr, ← hm, ← hd]

theorem C5_do_move_false_side_effect_free_witness :
    ([4, 4, 0, 1] : List Int) = [4, 4, 0, 1] ∧
      ∃ l2, move_line_left [4, 4, 0, 1] true = some (l2, true, 9) :=
  (C5_do_move_false_side_effect_free [4, 4, 0, 1]).1 [4, 4, 0, 1] true 9 (by decide)

/-! ## C10: totality and code-range preservation of the line collapse -/

theorem scoresAt_isSome (x : Int) (h : 0 ≤ x ∧ x ≤ 15) : ∃ s, scoresAt x = some s := by
  refine ⟨SCORES.getD x.toNat 0, ?_⟩
  unfold scoresAt
  rw [if_pos ⟨h.1, by omega⟩]

theorem validLine_shift (c : Int) (rest : List Int) (hc : 0 ≤ c ∧ c ≤ MAX_PIECE)
    (hr : ValidLine rest) : ValidLine (c :: (rest ++ [EMPTY_SPACE])) := by
  intro x hx
  simp [EMPTY_SPACE] at hx
  rcases hx with rfl | hx | rfl
  · exact hc
  · exact hr x hx
  · exact ⟨le_refl 0, by decide⟩

theorem moveLineRec_total (line : List Int) (hv : ValidLine line) (hn : NoAdjMax line) :
    ∃ r, moveLineRec line = some r ∧ ∀ l d, r = some (l, d) → ValidLine l := by
  induction line with
  | nil => exact ⟨none, by simp [moveLineRec], by simp⟩
  | cons a tail ih =>
    cases tail with
    | nil => exact ⟨none, by simp [moveLineRec], by simp⟩
    | cons b rest =>
      have hva := hv a (by simp)
      have hvb := hv b (by simp)
      have hvtail : ValidLine (b :: rest) := fun x hx => hv x (List.mem_cons_of_mem _ hx)
      have hntail : NoAdjMax (b :: rest) := by
        intro p hp
        exact hn p (by rw [adjacentPairs_cons_cons]; exact List.mem_cons_of_mem _ hp)
      have hvrest : ValidLine rest := fun x hx => hvtail x (List.mem_cons_of_mem _ hx)
      by_cases h1 : rule1 a b
      · refine ⟨some (b :: (rest ++ [EMPTY_SPACE]), 0), by simp [moveLineRec, h1], ?_⟩
        intro l d hld
        simp only [Option.some.injEq, Prod.mk.injEq] at hld
        rw [← hld.1]
        exact validLine_shift b rest hvb hvrest
      · by_cases h2 : rule2 a b
        · have hs : scoresAt PIECE_3 = some 3 := by decide
          refine ⟨some (PIECE_3 :: (rest ++ [EMPTY_SPACE]), 3),
            by simp [moveLineRec, h1, h2, hs], ?_⟩
          intro l d hld
          simp only [Option.some.injEq, Prod.mk.injEq] at hld
          rw [← hld.1]
          exact validLine_shift PIECE_3 rest (by decide) hvrest
        · by_cases h3 : rule3 a b
          · have h3p : PIECE_3 ≤ a ∧ a = b := by simpa [rule3] using h3
            have hadj : ¬(a = MAX_PIECE ∧ b = MAX_PIECE) := by
              have := hn (a, b) (by rw [adjacentPairs_cons_cons]; simp)
              simpa using this
            have ha14 : a ≤ 14 := by
              simp only [MAX_PIECE, PIECE_12288] at hadj hva
              rcases h3p with ⟨_, rfl⟩
              omega
            have hva15 : 0 ≤ a ∧ a ≤ 15 := by
              simp only [MAX_PIECE, PIECE_12288] at hva
              exact hva
            obtain ⟨s1, hs1⟩ := scoresAt_isSome (a + 1) (by omega)
            obtain ⟨s0, hs0⟩ := scoresAt_isSome a hva15
            refine ⟨some ((a + 1) :: (rest ++ [EMPTY_SPACE]), s1 - 2 * s0),
              by simp [moveLineRec, h1, h2, h3, hs1, hs0], ?_⟩
            intro l d hld
            simp only [Option.some.injEq, Prod.mk.injEq] at hld
            rw [← hld.1]
            refine validLine_shift (a + 1) rest ?_ hvrest
            simp only [MAX_PIECE, PIECE_12288]
            omega
          · obtain ⟨r, hr, hpres⟩ := ih hvtail hntail
            refine ⟨r.map (fun p => (a :: p.1, p.2)),
              by simp [moveLineRec, h1, h2, h3, hr], ?_⟩
            intro l d hld
            cases r with
            | none => simp at hld
            | some p =>
              simp only [Option.map_some', Option.some.injEq, Prod.mk.injEq] at hld
              rw [← hld.1]
              intro x hx
              rcases List.mem_cons.mp hx with rfl | hx
              · exact hva
              · exact hpres p.1 p.2 rfl x hx

/-- C10: every line whose cells are tile codes in `[0, MAX_PIECE]` with no
two adjacent cells both equal to `MAX_PIECE` is moved without error
(every `SCORES` lookup is in bounds) and yields a line of tile codes in
`[0, MAX_PIECE]` again; without the adjacency precondition this fails:
merging two adjacent `MAX_PIECE` cells reads one past the end of the
16-entry `SCORES` table. -/
theorem C10_line_safety :
    (∀ line : List Int, ValidLine line → NoAdjMax line →
      ∃ l m d, move_line_left line true = some (l, m, d) ∧ ValidLine l) ∧
    move_line_left [MAX_PIECE, MAX_PIECE, 0, 0] true = none := by
  constructor
  · intro line hv hn
    obtain ⟨r, hr, hpres⟩ := moveLineRec_total line hv hn
    cases r with
    | none => exact ⟨line, false, 0, by simp [move_line_left, hr], hv⟩
    | some p => exact ⟨p.1, true, p.2, by simp [move_line_left, hr], hpres p.1 p.2 rfl⟩
  · decide

theorem C10_line_safety_witness :
    ∃ l m d, move_line_left [1, 2, 3, 3] true = some (l, m, d) ∧ ValidLine l :=
  C10_line_safety.1 [1, 2, 3, 3] (by decide) (by decide)

/-! ## C6: the reported score delta is the total-score difference -/

theorem total_score_append_zero (l : List Int) :
    total_score (l ++ [EMPTY_SPACE]) = total_score l := by
  induction l with
  | nil => decide
  | cons x xs ih =>
    simp only [List.cons_append, total_score, List.append_eq]
    rw [ih]

theorem total_score_cons (x : Int) (xs : List Int) (s : Int) (hs : total_score xs = some s)
    (sx : Int) (hsx : scoresAt x = some sx) (hx : 0 ≤ x) :
    total_score (x :: xs) = some (sx + s) := by
  simp only [total_score, hs]
  simp [hx, hsx]

theorem total_score_total (l : List Int) (hv : ValidLine l) : ∃ s, total_score l = some s := by
  induction l with
  | nil => exact ⟨0, rfl⟩
  | cons x xs ih =>
    obtain ⟨s, hs⟩ := ih (fun y hy => hv y (List.mem_cons_of_mem _ hy))
    have hx := hv x (by simp)
    simp only [MAX_PIECE, PIECE_12288] at hx
    obtain ⟨sx, hsx⟩ := scoresAt_isSome x hx
    exact ⟨sx + s, total_score_cons x xs s hs sx hsx hx.1⟩

theorem moveLineRec_score (line : List Int) (hv : ValidLine line) :
    ∀ l d, moveLineRec line = some (some (l, d)) →
      ∃ s s2, total_score line = some s ∧ total_score l = some s2 ∧ d = s2 - s := by
  induction line with
  | nil => intro l d h; simp [moveLineRec] at h
  | cons a tail ih =>
    cases tail with
    | nil => intro l d h; simp [moveLineRec] at h
    | cons b rest =>
      intro l d h
      have hva := hv a (by simp)
      have hvb := hv b (by simp)
      simp only [MAX_PIECE, PIECE_12288] at hva hvb
      have hvtail : ValidLine (b :: rest) := fun x hx => hv x (List.mem_cons_of_mem _ hx)
      have hvrest : ValidLine rest := fun x hx => hvtail x (List.mem_cons_of_mem _ hx)
      obtain ⟨sr, hsr⟩ := total_score_total rest hvrest
      by_cases h1 : rule1 a b
      · have h1p : a = 0 ∧ ¬b = 0 := by simpa [rule1, EMPTY_SPACE] using h1
        simp only [moveLineRec, h1, if_true, Option.some.injEq, Prod.mk.injEq] at h
        obtain ⟨hl, hd⟩ := h
        obtain ⟨st, hst⟩ := total_score_total (b :: rest) hvtail
        refine ⟨0 + st, st, ?_, ?_, by omega⟩
        · rcases h1p with ⟨rfl, _⟩
          exact total_score_cons 0 (b :: rest) st hst 0 (by decide) (le_refl 0)
        · rw [← hl, ← List.cons_append, total_score_append_zero]
          exact hst
      · by_cases h2 : rule2 a b
        · have h2p : (1 ≤ a ∧ a ≤ 2) ∧ a + b = 3 := by
            simpa [rule2, PIECE_1, PIECE_2] using h2
          have hs3 : scoresAt PIECE_3 = some 3 := by decide
          simp only [moveLineRec, h1, h2, if_true, if_false, Bool.false_eq_true, hs3,
            Option.map_some', Option.some.injEq, Prod.mk.injEq] at h
          obtain ⟨hl, hd⟩ := h
          have hsa : scoresAt a = some 0 := by
            have : a = 1 ∨ a = 2 := by omega
            rcases this with rfl | rfl <;> decide
          have hsb : scoresAt b = some 0 := by
            have : b = 1 ∨ b = 2 := by omega
            rcases this with rfl | rfl <;> decide
          refine ⟨0 + (0 + sr), 3 + sr, ?_, ?_, by omega⟩
          · exact total_score_cons a (b :: rest) (0 + sr)
              (total_score_cons b rest sr hsr 0 hsb hvb.1) 0 hsa hva.1
          · rw [← hl, ← List.cons_append, total_score_append_zero]
            exact total_score_cons PIECE_3 rest sr hsr 3 hs3 (by decide)
        · by_cases h3 : rule3 a b
          · have h3p : (3 : Int) ≤ a ∧ a = b := by simpa [rule3, PIECE_3] using h3
            simp only [moveLineRec, h1, h2, h3, if_true, if_false, Bool.false_eq_true] at h
            cases hs1 : scoresAt (a + 1) with
            | none => rw [hs1] at h; simp at h
            | some s1 =>
              cases hs0 : scoresAt a with
              | none => rw [hs1, hs0] at h; simp at h
              | some s0 =>
                rw [hs1, hs0] at h
                simp only [Option.some.injEq, Prod.mk.injEq] at h
                obtain ⟨hl, hd⟩ := h
                refine ⟨s0 + (s0 + sr), s1 + sr, ?_, ?_, by omega⟩
                · rcases h3p with ⟨ha3, rfl⟩
                  exact total_score_cons a (a :: rest) (s0 + sr)
                    (total_score_cons a rest sr hsr s0 hs0 (by omega)) s0 hs0 (by omega)
                · rw [← hl, ← List.cons_append, total_score_append_zero]
                  exact total_score_cons (a + 1) rest sr hsr s1 hs1 (by omega)
          · have hrec : moveLineRec (a :: b :: rest) =
                (moveLineRec (b :: rest)).map (fun r => r.map (fun p => (a :: p.1, p.2))) := by
              simp [moveLineRec, h1, h2, h3]
            rw [hrec] at h
            cases hmr : moveLineRec (b :: rest) with
            | none => rw [hmr] at h; simp at h
            | some r =>
              cases r with
              | none => rw [hmr] at h; simp at h
              | some p =>
                rw [hmr] at h
                simp only [Option.map_some', Option.some.injEq, Prod.mk.injEq] at h
                obtain ⟨hl, hd⟩ := h
                obtain ⟨s, s2, hs, hs2, hdd⟩ := ih hvtail p.1 p.2 (by rw [hmr])
                obtain ⟨sa, hsa⟩ := scoresAt_isSome a hva
                refine ⟨sa + s, sa + s2, ?_, ?_, by omega⟩
                · exact total_score_cons a (b :: rest) s hs sa hsa hva.1
                · rw [← hl]
                  exact total_score_cons a p.1 s2 hs2 sa hsa hva.1

/-- C6: for every line of valid tile codes, the score delta returned by the
mutating `move_line_left` call equals `total_score` of the line after the
call minus `total_score` of the line before it (per-tile values: 0 for
codes 0, 1, 2 and `3^(c-2)` for `c ≥ 3`, negative sentinel cells
excluded). -/
theorem C6_score_delta (line : List Int) (hv : ValidLine line) :
    ∀ l m d, move_line_left line true = some (l, m, d) →
      ∃ s s2, total_score line = some s ∧ total_score l = some s2 ∧ d = s2 - s := by
  intro l m d h
  unfold move_line_left at h
  cases hr : moveLineRec line with
  | none => rw [hr] at h; simp at h
  | some r =>
    cases r with
    | none =>
      rw [hr] at h
      simp only [Option.some.injEq, Prod.mk.injEq] at h
      obtain ⟨hl, _, hd⟩ := h
      obtain ⟨s, hs⟩ := total_score_total line hv
      exact ⟨s, s, hs, by rw [← hl]; exact hs, by omega⟩
    | some p =>
      rw [hr] at h
      simp only [if_true, Option.some.injEq, Prod.mk.injEq] at h
      obtain ⟨hl, _, hd⟩ := h
      obtain ⟨s, s2, hs, hs2, hdd⟩ := moveLineRec_score line hv p.1 p.2 (by rw [hr])
      exact ⟨s, s2, hs, by rw [← hl]; simpa using hs2, by omega⟩

theorem C6_score_delta_witness :
    ∃ s s2, total_score [1, 2, 1, 2] = some s ∧ total_score [3, 1, 2, 0] = some s2 ∧
      (3 : Int) = s2 - s :=
  C6_score_delta [1, 2, 1, 2] (by decide) [3, 1, 2, 0] true 3 (by decide)

/-! ## C8: shape of `future_piece_possibilities` -/

theorem intRange_length (lo hi : Int) : (intRange lo hi).length = (hi - lo).toNat := by
  unfold intRange
  rw [List.length_map, List.length_range]

theorem intRange_getD (lo hi : Int) (i : Nat) (h : i < (intRange lo hi).length) :
    (intRange lo hi).getD i 0 = lo + i := by
  rw [intRange_length] at h
  unfold intRange
  rw [List.getD_eq_getElem?_getD, List.getElem?_map, List.getElem?_range h]
  rfl

/-- C8: `future_piece_possibilities(v)` is the singleton `[v]` when
`v ≤ PIECE_6`, and otherwise the contiguous integer range from
`max(PIECE_6, v - 2)` to `v` inclusive, which always ends at `v` and has
between 1 and 3 elements. -/
theorem C8_future_piece_possibilities (v : Int) :
    (v ≤ PIECE_6 → future_piece_possibilities v = [v]) ∧
    (PIECE_6 < v →
      future_piece_possibilities v = intRange (max PIECE_6 (v - 2)) (v + 1) ∧
      (∀ i : Nat, i < (future_piece_possibilities v).length →
        (future_piece_possibilities v).getD i 0 = max PIECE_6 (v - 2) + i) ∧
      (future_piece_possibilities v).getLast? = some v ∧
      1 ≤ (future_piece_possibilities v).length ∧
      (future_piece_possibilities v).length ≤ 3) := by
  constructor
  · intro h
    simp [future_piece_possibilities, h]
  · intro h
    have hnot : ¬v ≤ PIECE_6 := by omega
    have hfp : future_piece_possibilities v = intRange (max PIECE_6 (v - 2)) (v + 1) := by
      simp [future_piece_possibilities, hnot]
    have hlen : (intRange (max PIECE_6 (v - 2)) (v + 1)).length =
        (v + 1 - max PIECE_6 (v - 2)).toNat := intRange_length _ _
    have hpos : 1 ≤ (v + 1 - max PIECE_6 (v - 2)).toNat := by
      simp only [PIECE_6] at h ⊢
      omega
    refine ⟨hfp, ?_, ?_, ?_, ?_⟩
    · intro i hi
      rw [hfp] at hi ⊢
      exact intRange_getD _ _ i hi
    · rw [hfp, List.getLast?_eq_getElem?]
      have hlt : (intRange (max PIECE_6 (v - 2)) (v + 1)).length - 1 <
          (intRange (max PIECE_6 (v - 2)) (v + 1)).length := by omega
      rw [List.getElem?_eq_getElem hlt]
      have hgd := intRange_getD (max PIECE_6 (v - 2)) (v + 1)
        ((intRange (max PIECE_6 (v - 2)) (v + 1)).length - 1) hlt
      rw [List.getD_eq_getElem _ _ hlt] at hgd
      rw [hgd]
      congr 1
      rw [hlen]
      have hcast : ((((v + 1 - max PIECE_6 (v - 2)).toNat - 1 : Nat)) : Int) =
          v - max PIECE_6 (v - 2) := by
        simp only [PIECE_6] at h hpos ⊢
        omega
      rw [hcast]
      ring
    · rw [hfp, hlen]
      omega
    · rw [hfp, hlen]
      simp only [PIECE_6] at h ⊢
      omega

theorem C8_future_piece_possibilities_witness :
    future_piece_possibilities 3 = [3] ∧
    future_piece_possibilities 9 = intRange (max PIECE_6 (9 - 2)) (9 + 1) ∧
    (future_piece_possibilities 9).getLast? = some 9 := by
  refine ⟨(C8_future_piece_possibilities 3).1 (by decide), ?_, ?_⟩
  · exact ((C8_future_piece_possibilities 9).2 (by decide)).1
  · exact ((C8_future_piece_possibilities 9).2 (by decide)).2.2.1

/-! ## C7: future piece display policy -/

/-- C7: after a move, if the board maximum is below `PIECE_48` the special
queue is not drawn from and the displayed value comes from the base queue;
if the maximum is at least `PIECE_48` the special queue is drawn, and on a
false draw the value again comes from the base queue, while on a true draw
it is exactly `max − 3` when `max − 3 ≤ PIECE_24` and otherwise a uniform
draw from the inclusive range `[PIECE_24, max − 3]` (modelled as the
`randint PIECE_24 (max − 3 + 1)` oracle call, which lies in that range for
any range-respecting oracle). -/
theorem C7_choose_future_piece_display (boardCells : List Int) (specialQ : Nat → Bool)
    (sPos : Nat) (baseQ : Nat → Int) (bPos : Nat) (randint : Int → Int → Int) :
    (boardMax boardCells < PIECE_48 →
      choose_future_piece_display boardCells specialQ sPos baseQ bPos randint =
        (baseQ bPos, sPos, bPos + 1)) ∧
    (PIECE_48 ≤ boardMax boardCells → specialQ sPos = false →
      choose_future_piece_display boardCells specialQ sPos baseQ bPos randint =
        (baseQ bPos, sPos + 1, bPos + 1)) ∧
    (PIECE_48 ≤ boardMax boardCells → specialQ sPos = true →
      boardMax boardCells - 3 ≤ PIECE_24 →
      choose_future_piece_display boardCells specialQ sPos baseQ bPos randint =
        (boardMax boardCells - 3, sPos + 1, bPos)) ∧
    (PIECE_48 ≤ boardMax boardCells → specialQ sPos = true →
      PIECE_24 < boardMax boardCells - 3 →
      choose_future_piece_display boardCells specialQ sPos baseQ bPos randint =
        (randint PIECE_24 (boardMax boardCells - 3 + 1), sPos + 1, bPos) ∧
      ((∀ lo hi : Int, lo < hi → lo ≤ randint lo hi ∧ randint lo hi < hi) →
        PIECE_24 ≤ (choose_future_piece_display boardCells specialQ sPos baseQ bPos
            randint).1 ∧
        (choose_future_piece_display boardCells specialQ sPos baseQ bPos randint).1 ≤
          boardMax boardCells - 3)) := by
  refine ⟨?_, ?_, ?_, ?_⟩
  · intro h
    unfold choose_future_piece_display
    rw [if_neg (by omega)]
  · intro h hs
    unfold choose_future_piece_display
    rw [if_pos h, hs]
    simp
  · intro h hs hle
    unfold choose_future_piece_display
    rw [if_pos h, hs]
    simp only [if_true]
    rw [if_pos hle]
  · intro h hs hgt
    have heq : choose_future_piece_display boardCells specialQ sPos baseQ bPos randint =
        (randint PIECE_24 (boardMax boardCells - 3 + 1), sPos + 1, bPos) := by
      unfold choose_future_piece_display
      rw [if_pos h, hs]
      simp only [if_true]
      rw [if_neg (by omega)]
    refine ⟨heq, ?_⟩
    intro hrand
    have hr := hrand PIECE_24 (boardMax boardCells - 3 + 1) (by omega)
    rw [heq]
    constructor
    · exact hr.1
    · have := hr.2
      omega

theorem C7_choose_future_piece_display_witness :
    choose_future_piece_display [1, 2, 3, 0] (fun _ => true) 0 (fun _ => 1) 0
        (fun lo _ => lo) = (1, 0, 1) :=
  (C7_choose_future_piece_display [1, 2, 3, 0] (fun _ => true) 0 (fun _ => 1) 0
    (fun lo _ => lo)).1 (by decide)

/-! ## C9: one-hot encode / arg-max round trip -/

theorem foldr_max_replicate (k init : Nat) :
    (List.replicate k 0).foldr max init = init := by
  induction k with
  | zero => rfl
  | succ n ih => simp [List.replicate_succ, ih]

theorem set_replicate_eq (x : Nat) : ∀ (nv : Nat), x < nv →
    (List.replicate nv 0).set x 1 =
      List.replicate x 0 ++ 1 :: List.replicate (nv - x - 1) 0 := by
  induction x with
  | zero =>
    intro nv h
    cases nv with
    | zero => omega
    | succ m => simp [List.replicate_succ]
  | succ n ih =>
    intro nv h
    cases nv with
    | zero => omega
    | succ m =>
      simp only [List.replicate_succ, List.set_cons_succ, ih m (by omega)]
      simp [Nat.succ_sub_succ]

theorem findIdx_one_at (x : Nat) (ys : List Nat) :
    (List.replicate x 0 ++ 1 :: ys).findIdx (fun v => v = 1) = x := by
  induction x with
  | zero => simp [List.findIdx_cons]
  | succ n ih => simp [List.replicate_succ, List.findIdx_cons, ih]

theorem argmax_onehot (nv x : Nat) (h : x < nv) :
    argmaxRow ((List.replicate nv 0).set x 1) = x := by
  rw [set_replicate_eq x nv h]
  unfold argmaxRow
  have hmax : (List.replicate x 0 ++ 1 :: List.replicate (nv - x - 1) 0).foldr max 0 = 1 := by
    rw [List.foldr_append]
    simp [foldr_max_replicate]
  rw [hmax]
  exact findIdx_one_at x (List.replicate (nv - x - 1) 0)

theorem zipWith_setOne_const (row : List Nat) : ∀ (l : List Nat),
    List.zipWith setOne (l.map (fun _ => row)) l = l.map (fun v => setOne row v) := by
  intro l
  induction l with
  | nil => rfl
  | cons a t ih => simp only [List.map_cons, List.zipWith_cons_cons, ih]

theorem applyChunks_eq_aux (nv : Nat) : ∀ (n : Nat) (data : List Nat), data.length ≤ n →
    applyChunks (data.map (fun _ => List.replicate nv 0)) data =
      data.map (fun v => setOne (List.replicate nv 0) v) := by
  intro n
  induction n with
  | zero =>
    intro data h
    cases data with
    | nil => simp [applyChunks]
    | cons d ds => simp at h
  | succ n ih =>
    intro data hlen
    cases data with
    | nil => simp [applyChunks]
    | cons d ds =>
      rw [applyChunks]
      rw [← List.map_take (fun _ => List.replicate nv 0) (d :: ds) ARANGE_LEN]
      rw [← List.map_drop (fun _ => List.replicate nv 0) (d :: ds) ARANGE_LEN]
      rw [zipWith_setOne_const]
      rw [ih ((d :: ds).drop ARANGE_LEN) (by simp [ARANGE_LEN] at hlen ⊢; omega)]
      rw [List.map_take, List.map_drop]
      rw [← List.map_take (fun v => setOne (List.replicate nv 0) v),
        ← List.map_drop (fun v => setOne (List.replicate nv 0) v)]
      rw [← List.map_append, List.take_append_drop]

/-- C9: encoding an integer array whose values lie in `[0, num_values)`
with `onehot_encode` and then taking the arg-max along the encoded axis
recovers the array exactly, for any length — including lengths above the
4096-entry chunk size, which exercise the chunked processing loop. -/
theorem C9_onehot_roundtrip (data : List Nat) (num_values : Nat)
    (h : ∀ v ∈ data, v < num_values) :
    (onehot_encode data num_values).map argmaxRow = data := by
  unfold onehot_encode
  rw [applyChunks_eq_aux num_values data.length data (le_refl _)]
  rw [List.map_map]
  have : ∀ v ∈ data, (argmaxRow ∘ fun v => setOne (List.replicate num_values 0) v) v =
      id v := by
    intro v hv
    simp only [Function.comp_apply, id]
    exact argmax_onehot num_values v (h v hv)
  rw [List.map_congr_left this, List.map_id]

theorem C9_onehot_roundtrip_witness :
    (onehot_encode (List.replicate 4097 0) 1).map argmaxRow = List.replicate 4097 0 :=
  C9_onehot_roundtrip (List.replicate 4097 0) 1
    (fun v hv => by rw [List.eq_of_mem_replicate hv]; omega)

/-! ## Board and rotation lemmas -/

theorem cell_mkBoard (n : Nat) (f : Nat → Nat → Int) (i j : Nat) (hi : i < n) (hj : j < n) :
    cell (mkBoard n f) i j = f i j := by
  unfold cell mkBoard
  simp only [List.getD_eq_getElem?_getD, List.getElem?_map, List.getElem?_range hi,
    List.getElem?_range hj, Option.map_some', Option.getD_some]

theorem mkBoard_square (n : Nat) (f : Nat → Nat → Int) : SquareBoard n (mkBoard n f) := by
  constructor
  · simp [mkBoard]
  · intro row hrow
    simp only [mkBoard, List.mem_map] at hrow
    obtain ⟨i, _, hrow⟩ := hrow
    rw [← hrow]
    simp

theorem mkBoard_congr (n : Nat) (f g : Nat → Nat → Int)
    (h : ∀ i < n, ∀ j < n, f i j = g i j) : mkBoard n f = mkBoard n g := by
  unfold mkBoard
  apply List.map_congr_left
  intro i hi
  apply List.map_congr_left
  intro j hj
  exact h i (List.mem_range.mp hi) j (List.mem_range.mp hj)

theorem cell_eq_getElem (b : List (List Int)) (i j : Nat) (hi : i < b.length)
    (hj : j < b[i].length) : cell b i j = b[i][j] := by
  unfold cell
  simp only [List.getD_eq_getElem?_getD, List.getElem?_eq_getElem hi, Option.getD_some,
    List.getElem?_eq_getElem hj]

theorem mkBoard_ext (n : Nat) (b : List (List Int)) (hb : SquareBoard n b) :
    mkBoard n (fun i j => cell b i j) = b := by
  obtain ⟨hlen, hrows⟩ := hb
  apply List.ext_getElem
  · simp [mkBoard, hlen]
  · intro i h1 h2
    have hin : i < n := by simpa [mkBoard] using h1
    unfold mkBoard
    rw [List.getElem_map, List.getElem_range]
    have hrowlen : b[i].length = n := hrows b[i] (List.getElem_mem h2)
    apply List.ext_getElem
    · simp [hrowlen]
    · intro j hj1 hj2
      rw [List.getElem_map, List.getElem_range]
      exact cell_eq_getElem b i j h2 hj2

theorem rot_square (n : Nat) (b : List (List Int)) (d : Nat) (hb : SquareBoard n b) :
    SquareBoard n (rotated_boards_view n b d) := by
  unfold rotated_boards_view
  rcases (by omega : d % 4 = 0 ∨ d % 4 = 1 ∨ d % 4 = 2 ∨ d % 4 = 3) with h | h | h | h <;>
    rw [h] <;> first
      | exact hb
      | exact mkBoard_square n _

theorem unrot_rot (n : Nat) (b : List (List Int)) (d : Nat) (hb : SquareBoard n b) :
    unrotate_view n (rotated_boards_view n b d) d = b := by
  unfold unrotate_view rotated_boards_view
  rcases (by omega : d % 4 = 0 ∨ d % 4 = 1 ∨ d % 4 = 2 ∨ d % 4 = 3) with h | h | h | h <;>
    rw [h]
  · show mkBoard n (fun i j => cell (mkBoard n fun i j => cell b j (n - 1 - i)) (n - 1 - j) i) = b
    rw [mkBoard_congr n _ (fun i j => cell b i j)
      (fun i hi j hj => by
        rw [cell_mkBoard n _ _ _ (by omega) hi]
        have e : n - 1 - (n - 1 - j) = j := by omega
        rw [e])]
    exact mkBoard_ext n b hb
  · show mkBoard n (fun i j =>
        cell (mkBoard n fun i j => cell b (n - 1 - i) (n - 1 - j)) (n - 1 - i) (n - 1 - j)) = b
    rw [mkBoard_congr n _ (fun i j => cell b i j)
      (fun i hi j hj => by
        rw [cell_mkBoard n _ _ _ (by omega) (by omega)]
        have e1 : n - 1 - (n - 1 - i) = i := by omega
        have e2 : n - 1 - (n - 1 - j) = j := by omega
        rw [e1, e2])]
    exact mkBoard_ext n b hb
  · show mkBoard n (fun i j => cell (mkBoard n fun i j => cell b (n - 1 - j) i) j (n - 1 - i)) = b
    rw [mkBoard_congr n _ (fun i j => cell b i j)
      (fun i hi j hj => by
        rw [cell_mkBoard n _ _ _ hj (by omega)]
        have e : n - 1 - (n - 1 - i) = i := by omega
        rw [e])]
    exact mkBoard_ext n b hb

/-! ## Per-line results under the validity preconditions -/

theorem move_line_left_total (l : List Int) (hv : ValidLine l) (hn : NoAdjMax l) :
    move_line_left l true = some (collapse1 l, moveFlag l, lineDelta l) := by
  obtain ⟨r, hr, _⟩ := moveLineRec_total l hv hn
  cases r with
  | none => simp [move_line_left, collapse1, moveFlag, lineDelta, hr]
  | some p => simp [move_line_left, collapse1, moveFlag, lineDelta, hr]

theorem is_line_movable_left_eq (l : List Int) (hv : ValidLine l) (hn : NoAdjMax l) :
    is_line_movable_left l = some (moveFlag l) := by
  obtain ⟨r, hr, _⟩ := moveLineRec_total l hv hn
  cases r with
  | none => simp [is_line_movable_left, move_line_left, moveFlag, hr]
  | some p => simp [is_line_movable_left, move_line_left, moveFlag, hr]

theorem collapse1_of_not_moved (l : List Int) (hm : moveFlag l = false) :
    collapse1 l = l := by
  unfold moveFlag at hm
  unfold collapse1
  cases hml : move_line_left l true with
  | none => rfl
  | some r =>
    rw [hml] at hm
    unfold move_line_left at hml
    cases hr : moveLineRec l with
    | none => rw [hr] at hml; simp at hml
    | some r2 =>
      cases r2 with
      | none =>
        rw [hr] at hml
        simp only [Option.some.injEq] at hml
        rw [← hml]
      | some p =>
        rw [hr] at hml
        simp only [Option.some.injEq] at hml
        rw [← hml] at hm
        simp at hm

theorem moveLineRec_last_empty (l : List Int) : ∀ l2 d, moveLineRec l = some (some (l2, d)) →
    l2.getLast? = some EMPTY_SPACE := by
  induction l with
  | nil => intro l2 d h; simp [moveLineRec] at h
  | cons a tail ih =>
    cases tail with
    | nil => intro l2 d h; simp [moveLineRec] at h
    | cons b rest =>
      intro l2 d h
      by_cases h1 : rule1 a b
      · simp only [moveLineRec, h1, if_true, Option.some.injEq, Prod.mk.injEq] at h
        rw [← h.1, ← List.cons_append, List.getLast?_append]
        rfl
      · by_cases h2 : rule2 a b
        · simp only [moveLineRec, h1, h2, if_true, if_false, Bool.false_eq_true] at h
          cases hs : scoresAt PIECE_3 with
          | none => rw [hs] at h; simp at h
          | some s =>
            rw [hs] at h
            simp only [Option.map_some', Option.some.injEq, Prod.mk.injEq] at h
            rw [← h.1, ← List.cons_append, List.getLast?_append]
            rfl
        · by_cases h3 : rule3 a b
          · simp only [moveLineRec, h1, h2, h3, if_true, if_false, Bool.false_eq_true] at h
            cases hs1 : scoresAt (a + 1) with
            | none => rw [hs1] at h; simp at h
            | some s1 =>
              cases hs0 : scoresAt a with
              | none => rw [hs1, hs0] at h; simp at h
              | some s0 =>
                rw [hs1, hs0] at h
                simp only [Option.some.injEq, Prod.mk.injEq] at h
                rw [← h.1, ← List.cons_append, List.getLast?_append]
                rfl
          · have hrec : moveLineRec (a :: b :: rest) =
                (moveLineRec (b :: rest)).map (fun r => r.map (fun p => (a :: p.1, p.2))) := by
              simp [moveLineRec, h1, h2, h3]
            rw [hrec] at h
            cases hmr : moveLineRec (b :: rest) with
            | none => rw [hmr] at h; simp at h
            | some r =>
              cases r with
              | none => rw [hmr] at h; simp at h
              | some p =>
                rw [hmr] at h
                simp only [Option.map_some', Option.some.injEq, Prod.mk.injEq] at h
                have hp := ih p.1 p.2 (by rw [hmr])
                rw [← h.1]
                rw [show a :: p.1 = [a] ++ p.1 from rfl, List.getLast?_append, hp]
                rfl

theorem collapse1_last_empty (l : List Int) (hm : moveFlag l = true) :
    (collapse1 l).getLast? = some EMPTY_SPACE := by
  unfold moveFlag at hm
  unfold collapse1
  cases hml : move_line_left l true with
  | none => rw [hml] at hm; simp at hm
  | some r =>
    rw [hml] at hm
    unfold move_line_left at hml
    cases hr : moveLineRec l with
    | none => rw [hr] at hml; simp at hml
    | some r2 =>
      cases r2 with
      | none =>
        rw [hr] at hml
        simp only [Option.some.injEq] at hml
        rw [← hml] at hm
        simp at hm
      | some p =>
        rw [hr] at hml
        simp only [if_true, Option.some.injEq] at hml
        rw [← hml]
        exact moveLineRec_last_empty l p.1 p.2 (by rw [hr])

theorem moveBoardLines_eq (L : List (List Int)) (hg : GoodLines L) :
    moveBoardLines L = (L.map collapse1, some (sumDeltas L, L.map moveFlag)) := by
  induction L with
  | nil => simp [moveBoardLines, sumDeltas]
  | cons l ls ih =>
    have hl := hg l (by simp)
    have hml := move_line_left_total l hl.1 hl.2
    have ihh := ih (fun x hx => hg x (List.mem_cons_of_mem _ hx))
    simp [moveBoardLines, hml, ihh, sumDeltas]

theorem anyMovable_eq (L : List (List Int)) (hg : GoodLines L) :
    anyMovable L = some (L.any moveFlag) := by
  induction L with
  | nil => rfl
  | cons l ls ih =>
    have hl := hg l (by simp)
    have h := is_line_movable_left_eq l hl.1 hl.2
    have ihh := ih (fun x hx => hg x (List.mem_cons_of_mem _ hx))
    cases hmf : moveFlag l <;> simp [anyMovable, h, hmf, ihh]

theorem movedIndicesFrom_nil_iff (flags : List Bool) : ∀ k : Nat,
    (movedIndicesFrom k flags = [] ↔ flags.any (fun x => x) = false) := by
  induction flags with
  | nil => intro k; simp [movedIndicesFrom]
  | cons f fs ih =>
    intro k
    cases f <;> simp [movedIndicesFrom, ih (k + 1)]

theorem any_map_general {α β : Type} (f : α → β) (l : List α) (p : β → Bool) :
    (l.map f).any p = l.any (fun x => p (f x)) := by
  induction l with
  | nil => rfl
  | cons a t ih => simp [ih]

/-! ## C2: illegal moves raise and leave the board unchanged -/

/-- C2: for every square board of valid tile codes (no two adjacent
terminal tiles in the reoriented lines), `move_board` raises
`IllegalMoveError` exactly when `is_legal_action` is false, i.e. when no
line of the board reoriented for the direction is movable left; and when
it raises, the board is left completely unchanged. -/
theorem C2_illegal_move (n : Nat) (b : List (List Int)) (d : Nat) (piece : Int) (choice : Nat)
    (hb : SquareBoard n b) (hg : GoodLines (rotated_boards_view n b d)) :
    ((move_board n b d piece choice).2 = Except.error MoveError.illegalMove ↔
      is_legal_action n b d = some false) ∧
    (is_legal_action n b d = some false ↔
      ∀ l ∈ rotated_boards_view n b d, is_line_movable_left l = some false) ∧
    ((move_board n b d piece choice).2 = Except.error MoveError.illegalMove →
      (move_board n b d piece choice).1 = b) := by
  have hml := moveBoardLines_eq (rotated_boards_view n b d) hg
  have hleg : is_legal_action n b d = some ((rotated_boards_view n b d).any moveFlag) :=
    anyMovable_eq _ hg
  cases hany : (rotated_boards_view n b d).any moveFlag with
  | false =>
    have hflags : ((rotated_boards_view n b d).map moveFlag).any (fun x => x) = false := by
      rw [any_map_general]
      exact hany
    have hidx : movedIndices ((rotated_boards_view n b d).map moveFlag) = [] :=
      (movedIndicesFrom_nil_iff _ 0).mpr hflags
    have hall : ∀ l ∈ rotated_boards_view n b d, moveFlag l = false := by
      intro l hl
      have := List.any_eq_false.mp hany l hl
      simpa using this
    have hmb : move_board n b d piece choice =
        (unrotate_view n ((rotated_boards_view n b d).map collapse1) d,
          Except.error MoveError.illegalMove) := by
      unfold move_board
      rw [hml]
      simp only
      rw [hidx]
    have hcoll : (rotated_boards_view n b d).map collapse1 = rotated_boards_view n b d := by
      have h1 : (rotated_boards_view n b d).map collapse1 =
          (rotated_boards_view n b d).map id :=
        List.map_congr_left (fun l hl => collapse1_of_not_moved l (hall l hl))
      rw [h1, List.map_id]
    refine ⟨?_, ?_, ?_⟩
    · rw [hmb, hleg, hany]
      simp
    · rw [hleg, hany]
      constructor
      · intro _ l hl
        rw [is_line_movable_left_eq l (hg l hl).1 (hg l hl).2, hall l hl]
      · intro _
        rfl
    · intro _
      rw [hmb]
      simp only
      rw [hcoll]
      exact unrot_rot n b d hb
  | true =>
    have hflags : ((rotated_boards_view n b d).map moveFlag).any (fun x => x) = true := by
      rw [any_map_general]
      exact hany
    have hidx : movedIndices ((rotated_boards_view n b d).map moveFlag) ≠ [] := by
      intro hcon
      rw [(movedIndicesFrom_nil_iff _ 0).mp hcon] at hflags
      exact Bool.false_ne_true hflags
    have hmb : (move_board n b d piece choice).2 =
        Except.ok (sumDeltas (rotated_boards_view n b d)) := by
      unfold move_board
      rw [hml]
      simp only
      cases hi2 : movedIndices ((rotated_boards_view n b d).map moveFlag) with
      | nil => exact absurd hi2 hidx
      | cons i is => rfl
    refine ⟨?_, ?_, ?_⟩
    · rw [hmb, hleg, hany]
      simp
    · rw [hleg, hany]
      constructor
      · intro hcon
        exact absurd hcon (by simp)
      · intro hall2
        exfalso
        obtain ⟨l, hl, hpl⟩ := List.any_eq_true.mp hany
        have hthis := hall2 l hl
        rw [is_line_movable_left_eq l (hg l hl).1 (hg l hl).2, hpl] at hthis
        simp at hthis
    · intro hcon
      rw [hmb] at hcon
      simp at hcon

theorem C2_illegal_move_witness :
    ((move_board 4 [[3, 4, 7, 4], [1, 2, 3, 0], [4, 5, 0, 0], [1, 1, 0, 0]] 1 10 0).2 =
        Except.error MoveError.illegalMove ↔
      is_legal_action 4 [[3, 4, 7, 4], [1, 2, 3, 0], [4, 5, 0, 0], [1, 1, 0, 0]] 1 =
        some false) ∧
    ((move_board 4 [[3, 4, 7, 4], [1, 2, 3, 0], [4, 5, 0, 0], [1, 1, 0, 0]] 1 10 0).2 =
        Except.error MoveError.illegalMove →
      (move_board 4 [[3, 4, 7, 4], [1, 2, 3, 0], [4, 5, 0, 0], [1, 1, 0, 0]] 1 10 0).1 =
        [[3, 4, 7, 4], [1, 2, 3, 0], [4, 5, 0, 0], [1, 1, 0, 0]]) :=
  ⟨(C2_illegal_move 4 _ 1 10 0 (by decide) (by decide)).1,
    (C2_illegal_move 4 _ 1 10 0 (by decide) (by decide)).2.2⟩

/-! ## C3: enumerating the random tile placements -/

theorem getD_map_lt {α β : Type} (f : α → β) (L : List α) (i : Nat) (hi : i < L.length)
    (d0 : α) (d1 : β) : (L.map f).getD i d1 = f (L.getD i d0) := by
  rw [List.getD_eq_getElem _ _ (by simpa using hi), List.getD_eq_getElem _ _ hi,
    List.getElem_map]

theorem movedIndicesFrom_mem (flags : List Bool) : ∀ k i, i ∈ movedIndicesFrom k flags →
    k ≤ i ∧ i - k < flags.length ∧ flags.getD (i - k) false = true := by
  induction flags with
  | nil => intro k i h; simp [movedIndicesFrom] at h
  | cons f fs ih =>
    intro k i h
    cases hf : f with
    | true =>
      rw [hf] at h
      simp only [movedIndicesFrom, if_true, List.mem_cons] at h
      rcases h with rfl | h
      · refine ⟨le_refl i, by simp, ?_⟩
        simp [hf]
      · obtain ⟨hk, hlen, hget⟩ := ih (k + 1) i h
        refine ⟨by omega, by simp; omega, ?_⟩
        have he : i - k = (i - (k + 1)) + 1 := by omega
        rw [he, List.getD_cons_succ]
        exact hget
    | false =>
      rw [hf] at h
      simp only [movedIndicesFrom, if_false, Bool.false_eq_true] at h
      obtain ⟨hk, hlen, hget⟩ := ih (k + 1) i h
      refine ⟨by omega, by simp; omega, ?_⟩
      have he : i - k = (i - (k + 1)) + 1 := by omega
      rw [he, List.getD_cons_succ]
      exact hget

/-- C3: for every square board (valid codes, no adjacent terminal pairs in
the reoriented lines), calling `move_board` once for each random choice
index `r` below the number of movable lines produces exactly the board
obtained by collapsing every movable line of the reoriented view and
placing `piece_to_add` in the last cell of the `r`-th movable line — so,
over all `r`, exactly the claimed set of boards; every successful call
returns the same score delta, the sum of the per-line deltas; and the
last cell of the chosen line is empty after the collapse, so the new tile
never overwrites a live tile. -/
theorem C3_random_choice_enumeration (n : Nat) (b : List (List Int)) (d : Nat) (piece : Int)
    (_hb : SquareBoard n b) (hg : GoodLines (rotated_boards_view n b d)) :
    ∀ r < (movableIdxs (rotated_boards_view n b d)).length,
      move_board n b d piece r =
        (unrotate_view n
          (setLastCell ((rotated_boards_view n b d).map collapse1)
            ((movableIdxs (rotated_boards_view n b d)).getD r 0) piece) d,
          Except.ok (sumDeltas (rotated_boards_view n b d))) ∧
      (((rotated_boards_view n b d).map collapse1).getD
          ((movableIdxs (rotated_boards_view n b d)).getD r 0) []).getLast? =
        some EMPTY_SPACE := by
  intro r hr
  have hml := moveBoardLines_eq (rotated_boards_view n b d) hg
  have hEq : movableIdxs (rotated_boards_view n b d) =
      movedIndices ((rotated_boards_view n b d).map moveFlag) := rfl
  constructor
  · unfold move_board
    rw [hml]
    simp only
    cases hi : movedIndices ((rotated_boards_view n b d).map moveFlag) with
    | nil =>
      exfalso
      rw [hEq, hi] at hr
      simp at hr
    | cons i is =>
      rw [hEq, hi]
  · have hidx : (movableIdxs (rotated_boards_view n b d)).getD r 0 ∈
        movedIndicesFrom 0 ((rotated_boards_view n b d).map moveFlag) := by
      rw [List.getD_eq_getElem _ _ hr]
      exact List.getElem_mem hr
    obtain ⟨-, hlt, hflag⟩ := movedIndicesFrom_mem _ 0 _ hidx
    simp only [Nat.sub_zero] at hlt hflag
    rw [List.length_map] at hlt
    rw [getD_map_lt moveFlag _ _ hlt [] false] at hflag
    rw [getD_map_lt collapse1 _ _ hlt [] []]
    exact collapse1_last_empty _ hflag

theorem C3_random_choice_enumeration_witness :
    move_board 4 [[3, 4, 7, 4], [1, 2, 3, 0], [4, 5, 0, 0], [1, 1, 0, 0]] 0 10 0 =
      (unrotate_view 4
        (setLastCell
          ((rotated_boards_view 4 [[3, 4, 7, 4], [1, 2, 3, 0], [4, 5, 0, 0], [1, 1, 0, 0]]
              0).map collapse1)
          ((movableIdxs (rotated_boards_view 4
              [[3, 4, 7, 4], [1, 2, 3, 0], [4, 5, 0, 0], [1, 1, 0, 0]] 0)).getD 0 0) 10) 0,
        Except.ok (sumDeltas (rotated_boards_view 4
          [[3, 4, 7, 4], [1, 2, 3, 0], [4, 5, 0, 0], [1, 1, 0, 0]] 0))) ∧
    (((rotated_boards_view 4 [[3, 4, 7, 4], [1, 2, 3, 0], [4, 5, 0, 0], [1, 1, 0, 0]]
          0).map collapse1).getD
        ((movableIdxs (rotated_boards_view 4
            [[3, 4, 7, 4], [1, 2, 3, 0], [4, 5, 0, 0], [1, 1, 0, 0]] 0)).getD 0 0) []).getLast? =
      some EMPTY_SPACE :=
  C3_random_choice_enumeration 4 [[3, 4, 7, 4], [1, 2, 3, 0], [4, 5, 0, 0], [1, 1, 0, 0]]
    0 10 (by decide) (by decide) 0 (by decide)

/-! ## C4: helper lemmas on rotated lines -/

theorem any_orB {α : Type} (L : List α) (p q : α → Bool) :
    L.any (fun x => p x || q x) = (L.any p || L.any q) := by
  induction L with
  | nil => rfl
  | cons a t ih =>
    simp only [List.any_cons, ih]
    cases p a <;> cases q a <;> cases t.any p <;> cases t.any q <;> rfl

theorem any_eq_range_any {α : Type} (L : List α) (p : α → Bool) (d0 : α) :
    L.any p = (List.range L.length).any (fun i => p (L.getD i d0)) := by
  induction L with
  | nil => rfl
  | cons a t ih =>
    rw [List.length_cons, List.range_succ_eq_map]
    simp only [List.any_cons, any_map_general, List.getD_cons_zero, Nat.succ_eq_add_one,
      List.getD_cons_succ]
    rw [ih]

theorem range_any_reflect (n : Nat) (q : Nat → Bool) :
    (List.range n).any (fun i => q (n - 1 - i)) = (List.range n).any q := by
  cases hq : (List.range n).any q with
  | true =>
    obtain ⟨i, hi, hqi⟩ := List.any_eq_true.mp hq
    rw [List.mem_range] at hi
    apply List.any_eq_true.mpr
    refine ⟨n - 1 - i, List.mem_range.mpr (by omega), ?_⟩
    have he : n - 1 - (n - 1 - i) = i := by omega
    rw [he]
    exact hqi
  | false =>
    apply List.any_eq_false.mpr
    intro i hi
    rw [List.mem_range] at hi
    have := List.any_eq_false.mp hq (n - 1 - i) (List.mem_range.mpr (by omega))
    simpa using this

theorem map_range_reverse (n : Nat) (g : Nat → Int) :
    (List.range n).map (fun j => g (n - 1 - j)) = ((List.range n).map g).reverse := by
  apply List.ext_getElem
  · simp
  · intro i h1 h2
    have hin : i < n := by simpa using h1
    rw [List.getElem_map, List.getElem_range, List.getElem_reverse, List.getElem_map,
      List.getElem_range]
    congr 1
    simp

theorem mem_mkBoard (n : Nat) (f : Nat → Nat → Int) (row : List Int)
    (h : row ∈ mkBoard n f) : ∃ i, i < n ∧ row = (List.range n).map (f i) := by
  simp only [mkBoard, List.mem_map, List.mem_range] at h
  obtain ⟨i, hi, hrow⟩ := h
  exact ⟨i, hi, hrow.symm⟩

theorem mkBoard_cells_bound (n : Nat) (f : Nat → Nat → Int)
    (hf : ∀ i < n, ∀ j < n, 0 ≤ f i j ∧ f i j ≤ 14) :
    ∀ l ∈ mkBoard n f, ∀ x ∈ l, 0 ≤ x ∧ x ≤ 14 := by
  intro l hl x hx
  obtain ⟨i, hi, rfl⟩ := mem_mkBoard n f l hl
  obtain ⟨j, hj, rfl⟩ := List.mem_map.mp hx
  exact hf i hi j (List.mem_range.mp hj)

theorem cell_mem (n : Nat) (b : List (List Int)) (i j : Nat) (hb : SquareBoard n b)
    (hi : i < n) (hj : j < n) : ∃ row ∈ b, cell b i j ∈ row := by
  obtain ⟨hlen, hrows⟩ := hb
  have hib : i < b.length := by omega
  have hjb : j < b[i].length := by
    rw [hrows b[i] (List.getElem_mem hib)]
    exact hj
  refine ⟨b[i], List.getElem_mem hib, ?_⟩
  rw [cell_eq_getElem b i j hib hjb]
  exact List.getElem_mem hjb

theorem cell_bound (n : Nat) (b : List (List Int)) (hb : SquareBoard n b)
    (h14 : ∀ row ∈ b, ∀ x ∈ row, 0 ≤ x ∧ x ≤ 14) (i j : Nat) (hi : i < n) (hj : j < n) :
    0 ≤ cell b i j ∧ cell b i j ≤ 14 := by
  obtain ⟨row, hrow, hmem⟩ := cell_mem n b i j hb hi hj
  exact h14 row hrow _ hmem

theorem goodLine_of_le14 (l : List Int) (h : ∀ x ∈ l, 0 ≤ x ∧ x ≤ 14) :
    ValidLine l ∧ NoAdjMax l := by
  constructor
  · intro x hx
    have := h x hx
    simp only [MAX_PIECE, PIECE_12288]
    omega
  · intro p hp hcon
    obtain ⟨hp1, _⟩ := List.of_mem_zip (by simpa [adjacentPairs] using hp)
    have := h p.1 hp1
    rw [hcon.1] at this
    simp [MAX_PIECE, PIECE_12288] at this

theorem good_rot (n : Nat) (b : List (List Int)) (d : Nat) (hb : SquareBoard n b)
    (h14 : ∀ row ∈ b, ∀ x ∈ row, 0 ≤ x ∧ x ≤ 14) :
    GoodLines (rotated_boards_view n b d) := by
  intro l hl
  apply goodLine_of_le14
  have hcell := cell_bound n b hb h14
  unfold rotated_boards_view at hl
  rcases (by omega : d % 4 = 0 ∨ d % 4 = 1 ∨ d % 4 = 2 ∨ d % 4 = 3) with h | h | h | h <;>
    rw [h] at hl
  · exact h14 l hl
  · exact mkBoard_cells_bound n _ (fun i hi j hj => hcell j (n - 1 - i) hj (by omega)) l hl
  · exact mkBoard_cells_bound n _
      (fun i hi j hj => hcell (n - 1 - i) (n - 1 - j) (by omega) (by omega)) l hl
  · exact mkBoard_cells_bound n _ (fun i hi j hj => hcell (n - 1 - j) i (by omega) hi) l hl

theorem anyMovableEitherEnd_eq (L : List (List Int))
    (h14 : ∀ l ∈ L, ∀ x ∈ l, 0 ≤ x ∧ x ≤ 14) :
    anyMovableEitherEnd L = some (L.any (fun l => moveFlag l || moveFlag l.reverse)) := by
  induction L with
  | nil => rfl
  | cons l ls ih =>
    have hfwd := goodLine_of_le14 l (h14 l (by simp))
    have hrev := goodLine_of_le14 l.reverse
      (fun x hx => h14 l (by simp) x (List.mem_reverse.mp hx))
    have h1 := is_line_movable_left_eq l hfwd.1 hfwd.2
    have h2 := is_line_movable_left_eq l.reverse hrev.1 hrev.2
    have ihh := ih (fun x hx => h14 x (List.mem_cons_of_mem _ hx))
    cases hm1 : moveFlag l with
    | true => simp [anyMovableEitherEnd, h1, hm1]
    | false =>
      cases hm2 : moveFlag l.reverse with
      | true => simp [anyMovableEitherEnd, h1, h2, hm1, hm2]
      | false => simp [anyMovableEitherEnd, h1, h2, hm1, hm2, ihh]

theorem mkBoard_any (n : Nat) (f : Nat → Nat → Int) (p : List Int → Bool) :
    (mkBoard n f).any p = (List.range n).any (fun i => p ((List.range n).map (f i))) := by
  unfold mkBoard
  rw [any_map_general]

theorem row_cells (n : Nat) (b : List (List Int)) (i : Nat) (hb : SquareBoard n b)
    (hi : i < n) : (List.range n).map (fun j => cell b i j) = b.getD i [] := by
  have h := congrArg (fun L => L.getD i []) (mkBoard_ext n b hb)
  simp only at h
  rw [← h]
  unfold mkBoard
  rw [List.getD_eq_getElem?_getD, List.getElem?_map, List.getElem?_range hi]
  rfl

theorem any_congr_mem {α : Type} (L : List α) (p q : α → Bool) (h : ∀ x ∈ L, p x = q x) :
    L.any p = L.any q := by
  induction L with
  | nil => rfl
  | cons a t ih =>
    simp only [List.any_cons, h a (by simp), ih (fun x hx => h x (List.mem_cons_of_mem _ hx))]

theorem is_legal_left (n : Nat) (b : List (List Int)) (hb : SquareBoard n b)
    (h14 : ∀ row ∈ b, ∀ x ∈ row, 0 ≤ x ∧ x ≤ 14) :
    is_legal_action n b 0 = some (b.any moveFlag) :=
  anyMovable_eq (rotated_boards_view n b 0) (good_rot n b 0 hb h14)

theorem is_legal_up (n : Nat) (b : List (List Int)) (hb : SquareBoard n b)
    (h14 : ∀ row ∈ b, ∀ x ∈ row, 0 ≤ x ∧ x ≤ 14) :
    is_legal_action n b 1 = some ((transposeView n b).any moveFlag) := by
  have h := anyMovable_eq (rotated_boards_view n b 1) (good_rot n b 1 hb h14)
  rw [show is_legal_action n b 1 = anyMovable (rotated_boards_view n b 1) from rfl, h]
  congr 1
  show (mkBoard n (fun i j => cell b j (n - 1 - i))).any moveFlag = _
  rw [mkBoard_any, transposeView, mkBoard_any]
  exact range_any_reflect n (fun k => moveFlag ((List.range n).map (fun j => cell b j k)))

theorem is_legal_right (n : Nat) (b : List (List Int)) (hb : SquareBoard n b)
    (h14 : ∀ row ∈ b, ∀ x ∈ row, 0 ≤ x ∧ x ≤ 14) :
    is_legal_action n b 2 = some (b.any (fun row => moveFlag row.reverse)) := by
  have h := anyMovable_eq (rotated_boards_view n b 2) (good_rot n b 2 hb h14)
  rw [show is_legal_action n b 2 = anyMovable (rotated_boards_view n b 2) from rfl, h]
  congr 1
  show (mkBoard n (fun i j => cell b (n - 1 - i) (n - 1 - j))).any moveFlag = _
  rw [mkBoard_any]
  rw [any_congr_mem (List.range n) _
    (fun i => moveFlag ((b.getD (n - 1 - i) []).reverse))
    (fun i hi => by
      congr 1
      rw [map_range_reverse n (fun j => cell b (n - 1 - i) j),
        row_cells n b (n - 1 - i) hb (by have := List.mem_range.mp hi; omega)])]
  rw [range_any_reflect n (fun k => moveFlag ((b.getD k []).reverse))]
  rw [any_eq_range_any b (fun row => moveFlag row.reverse) [], hb.1]

theorem is_legal_down (n : Nat) (b : List (List Int)) (hb : SquareBoard n b)
    (h14 : ∀ row ∈ b, ∀ x ∈ row, 0 ≤ x ∧ x ≤ 14) :
    is_legal_action n b 3 = some ((transposeView n b).any (fun col => moveFlag col.reverse)) := by
  have h := anyMovable_eq (rotated_boards_view n b 3) (good_rot n b 3 hb h14)
  rw [show is_legal_action n b 3 = anyMovable (rotated_boards_view n b 3) from rfl, h]
  congr 1
  show (mkBoard n (fun i j => cell b (n - 1 - j) i)).any moveFlag = _
  rw [mkBoard_any, transposeView, mkBoard_any]
  apply any_congr_mem
  intro i hi
  congr 1
  exact map_range_reverse n (fun j => cell b j i)

/-- C4: for every square board of valid tile codes, `is_game_over`
returns true exactly when the terminal code `PIECE_12288` occurs somewhere
on the board or no direction in {LEFT, UP, RIGHT, DOWN} is a legal action;
the code's forward and reversed traversal of each row and each column is
thereby equivalent to checking movability in all four rotated
orientations. -/
theorem C4_game_over (n : Nat) (b : List (List Int)) (hb : SquareBoard n b)
    (hv : ∀ row ∈ b, ValidLine row) :
    ∃ g, is_game_over n b = some g ∧
      (g = true ↔ ((∃ row ∈ b, (PIECE_12288 : Int) ∈ row) ∨
        ∀ d < 4, is_legal_action n b d ≠ some true)) := by
  cases h15 : b.any (fun row => row.any (fun x => x = PIECE_12288)) with
  | true =>
    refine ⟨true, by simp [is_game_over, h15], ?_⟩
    simp only [true_iff]
    obtain ⟨row, hrow, hrow15⟩ := List.any_eq_true.mp h15
    obtain ⟨x, hx, hxeq⟩ := List.any_eq_true.mp hrow15
    have hx15 : x = PIECE_12288 := by simpa using hxeq
    exact Or.inl ⟨row, hrow, hx15 ▸ hx⟩
  | false =>
    have h14 : ∀ row ∈ b, ∀ x ∈ row, 0 ≤ x ∧ x ≤ 14 := by
      intro row hrow x hx
      have hval := hv row hrow x hx
      simp only [MAX_PIECE, PIECE_12288] at hval
      have hno := List.any_eq_false.mp h15 row hrow
      have hrowf : row.any (fun x => x = PIECE_12288) = false := by
        cases hc : row.any (fun x => x = PIECE_12288)
        · rfl
        · exact absurd hc hno
      have hnx := List.any_eq_false.mp hrowf x hx
      simp only [PIECE_12288, decide_eq_true_eq] at hnx
      omega
    have hno15 : ¬∃ row ∈ b, (PIECE_12288 : Int) ∈ row := by
      rintro ⟨row, hrow, hmem⟩
      have := h14 row hrow PIECE_12288 hmem
      simp [PIECE_12288] at this
    have hT14 : ∀ l ∈ transposeView n b, ∀ x ∈ l, 0 ≤ x ∧ x ≤ 14 :=
      mkBoard_cells_bound n _ (fun i hi j hj => cell_bound n b hb h14 j i hj hi)
    have hbAny := anyMovableEitherEnd_eq b h14
    have htAny := anyMovableEitherEnd_eq (transposeView n b) hT14
    have hleg0 := is_legal_left n b hb h14
    have hleg1 := is_legal_up n b hb h14
    have hleg2 := is_legal_right n b hb h14
    have hleg3 := is_legal_down n b hb h14
    cases hx : b.any (fun l => moveFlag l || moveFlag l.reverse) with
    | true =>
      refine ⟨false, by simp [is_game_over, h15, hbAny, hx], ?_⟩
      simp only [Bool.false_eq_true, false_iff]
      rintro (hcon | hall)
      · exact hno15 hcon
      · obtain ⟨l, hl, hor⟩ := List.any_eq_true.mp hx
        rcases Bool.or_eq_true_iff.mp hor with hm | hm
        · have hA0 : b.any moveFlag = true := List.any_eq_true.mpr ⟨l, hl, hm⟩
          exact hall 0 (by omega) (by rw [hleg0, hA0])
        · have hA2 : b.any (fun row => moveFlag row.reverse) = true :=
            List.any_eq_true.mpr ⟨l, hl, hm⟩
          exact hall 2 (by omega) (by rw [hleg2, hA2])
    | false =>
      cases hy : (transposeView n b).any (fun l => moveFlag l || moveFlag l.reverse) with
      | true =>
        refine ⟨false, by simp [is_game_over, h15, hbAny, htAny, hx, hy], ?_⟩
        simp only [Bool.false_eq_true, false_iff]
        rintro (hcon | hall)
        · exact hno15 hcon
        · obtain ⟨l, hl, hor⟩ := List.any_eq_true.mp hy
          rcases Bool.or_eq_true_iff.mp hor with hm | hm
          · have hA1 : (transposeView n b).any moveFlag = true :=
              List.any_eq_true.mpr ⟨l, hl, hm⟩
            exact hall 1 (by omega) (by rw [hleg1, hA1])
          · have hA3 : (transposeView n b).any (fun col => moveFlag col.reverse) = true :=
              List.any_eq_true.mpr ⟨l, hl, hm⟩
            exact hall 3 (by omega) (by rw [hleg3, hA3])
      | false =>
        refine ⟨true, by simp [is_game_over, h15, hbAny, htAny, hx, hy], ?_⟩
        simp only [true_iff]
        right
        rw [any_orB b moveFlag (fun l => moveFlag l.reverse)] at hx
        rw [any_orB (transposeView n b) moveFlag (fun l => moveFlag l.reverse)] at hy
        obtain ⟨hA0, hA2⟩ := Bool.or_eq_false_iff.mp hx
        obtain ⟨hA1, hA3⟩ := Bool.or_eq_false_iff.mp hy
        intro d hd
        rcases (by omega : d = 0 ∨ d = 1 ∨ d = 2 ∨ d = 3) with rfl | rfl | rfl | rfl
        · rw [hleg0, hA0]; simp
        · rw [hleg1, hA1]; simp
        · rw [hleg2, hA2]; simp
        · rw [hleg3, hA3]; simp

theorem C4_game_over_witness :
    ∃ g, is_game_over 4 [[3, 4, 7, 4], [1, 2, 3, 0], [4, 5, 0, 0], [1, 1, 0, 0]] = some g ∧
      (g = true ↔ ((∃ row ∈ ([[3, 4, 7, 4], [1, 2, 3, 0], [4, 5, 0, 0], [1, 1, 0, 0]] :
            List (List Int)), (PIECE_12288 : Int) ∈ row) ∨
        ∀ d < 4, is_legal_action 4 [[3, 4, 7, 4], [1, 2, 3, 0], [4, 5, 0, 0], [1, 1, 0, 0]] d ≠
          some true)) :=
  C4_game_over 4 [[3, 4, 7, 4], [1, 2, 3, 0], [4, 5, 0, 0], [1, 1, 0, 0]]
    (by decide) (by decide)
